import Mathlib

/-!
Verification development for the forex analysis bot.

The repository has two analysis components:

* `bot/sr_detection.py` : `detect_sr_events(df, window, z_score_threshold)`
  computes pandas rolling mean / rolling sample standard deviation columns
  over the Signal column, a z-score `(Signal - mean) / (std + 1e-6)`, and
  returns the rows whose absolute z-score strictly exceeds the threshold.

* `forex_analysis_bot.py` : `calculate_atr`, `get_sr_levels`,
  `get_trendlines` compute the average true range, support/resistance
  levels from clipped local extrema (scipy `argrelextrema` with
  `np.less_equal` / `np.greater_equal`, default `mode=clip`), and up to two
  trendlines from the last two major pivots.

The embedding below models series values as exact rationals, pandas NaN as
`Option.none`, and a DataFrame as its caller-supplied data plus an ordered
association list of derived columns (the pandas functions assign derived
columns onto the frame passed in; the second component of each modelled
function is the state of that argument after the call).  The sample
standard deviation forces real numbers: `Real.sqrt` of the rational
rolling variance.

Pandas semantics reproduced here:
* `rolling(window=w).mean()` is defined at index `i` iff `w ≥ 1` and
  `i ≥ w - 1` (default `min_periods = window`), otherwise NaN.
* `rolling(window=w).std()` uses `ddof = 1`; the result is NaN unless the
  number of observations exceeds `ddof`, so a window of 1 yields NaN at
  every index (pandas `calc_var` requires `nobs > ddof`).
* comparisons with NaN are false, so NaN rows are never events.
* `DataFrame.max(axis=1)` skips NaN entries.
* `ewm(span=s, adjust=False).mean()` is the recurrence
  `y 0 = x 0`, `y i = (1 - a) * y (i-1) + a * x i` with `a = 2 / (s + 1)`.
* `Series.iloc[-1]` on an empty series raises; modelled as `Option.none`.

scipy `argrelextrema(data, comparator, order=k)` flags index `i` iff the
comparison holds between `data[i]` and `data[clip(i + s)]`,
`data[clip(i - s)]` for every shift `1 ≤ s ≤ k`, where `clip` clamps the
index into `[0, n-1]` (numpy `take` with `mode=clip`).

Python `round(x, 5)` is modelled as exact round-half-to-even at five
decimal digits, and `sorted(list(set(xs)))` as sort-after-dedup.
-/

namespace ForexBot

/-- Epsilon that the detector adds to the rolling standard deviation in the
z-score denominator. -/
def eps : ℚ := 1 / 1000000

/-- Trailing window of length `w` ending at index `i` inclusive, when the
window is full and the index is in range; otherwise `none` (pandas rolling
with `min_periods = window`). -/
def rollingWindow (sig : List ℚ) (w i : ℕ) : Option (List ℚ) :=
  if 1 ≤ w ∧ w ≤ i + 1 ∧ i < sig.length then
    some ((sig.drop (i + 1 - w)).take w)
  else
    none

/-- Rolling mean column value at index `i` (NaN as `none`). -/
def rollingMean (sig : List ℚ) (w i : ℕ) : Option ℚ :=
  (rollingWindow sig w i).map (fun l => l.sum / (w : ℚ))

/-- Rolling sample variance (`ddof = 1`) at index `i`.  Pandas returns NaN
unless the observation count exceeds `ddof`, hence the `2 ≤ w` guard. -/
def rollingVar (sig : List ℚ) (w i : ℕ) : Option ℚ :=
  if 2 ≤ w then
    (rollingWindow sig w i).map (fun l =>
      (l.map (fun x => (x - l.sum / (w : ℚ)) ^ 2)).sum / ((w : ℚ) - 1))
  else
    none

/-- Rolling sample standard deviation at index `i`. -/
noncomputable def rollingStd (sig : List ℚ) (w i : ℕ) : Option ℝ :=
  (rollingVar sig w i).map (fun v => Real.sqrt (v : ℝ))

/-- Difference column: `Signal - Rolling_Mean` at index `i`. -/
def differenceAt (sig : List ℚ) (w i : ℕ) : Option ℚ :=
  (rollingMean sig w i).map (fun m => sig.getD i 0 - m)

/-- Z-score column: `Difference / (Rolling_Std + eps)` at index `i`; NaN
propagates through the division. -/
noncomputable def zScoreAt (sig : List ℚ) (w i : ℕ) : Option ℝ :=
  match differenceAt sig w i, rollingStd sig w i with
  | some d, some s => some ((d : ℝ) / (s + (eps : ℝ)))
  | _, _ => none

section
open Classical

/-- Is_Event column: absolute z-score strictly above the threshold;
comparisons against NaN are false. -/
noncomputable def isEventAt (sig : List ℚ) (w : ℕ) (t : ℚ) (i : ℕ) : Bool :=
  match zScoreAt sig w i with
  | some z => decide ((t : ℝ) < |z|)
  | none => false

/-- Row of the returned event frame at index `i`: kept rows carry the
original Signal value and the signed z-score. -/
noncomputable def eventRowAt (sig : List ℚ) (w : ℕ) (t : ℚ) (i : ℕ) :
    Option (ℕ × ℚ × ℝ) :=
  match zScoreAt sig w i with
  | some z => if (t : ℝ) < |z| then some (i, sig.getD i 0, z) else none
  | none => none

end

/-- A derived column of the detector frame: rationals, reals, or booleans,
with `none` for NaN entries. -/
inductive SigCol
  | qs : List (Option ℚ) → SigCol
  | rs : List (Option ℝ) → SigCol
  | bs : List Bool → SigCol

/-- DataFrame for the detector: the Signal column (if present) plus the
ordered list of other columns. -/
structure SigFrame where
  signal : Option (List ℚ)
  extra : List (String × SigCol)

/-- Column assignment `data[name] = col`: replace in place if the name
exists, append otherwise (pandas keeps the column position). -/
def setCol {α : Type} : List (String × α) → String → α → List (String × α)
  | [], nm, c => [(nm, c)]
  | (nm0, c0) :: rest, nm, c =>
    if nm0 = nm then (nm, c) :: rest else (nm0, c0) :: setCol rest nm c

/-- Column lookup by name. -/
def getCol {α : Type} : List (String × α) → String → Option α
  | [], _ => none
  | (nm0, c0) :: rest, nm => if nm0 = nm then some c0 else getCol rest nm

/-- Embedding of `detect_sr_events` from `bot/sr_detection.py`.  Raises
(models `ValueError`) iff the Signal column is absent; otherwise returns
the event rows `(index, Signal, Z_Score)` in series order together with
the state of the caller frame after the call (the function assigns the
five derived columns onto the frame passed in). -/
noncomputable def detect_sr_events (f : SigFrame) (w : ℕ) (t : ℚ) :
    Except String (List (ℕ × ℚ × ℝ) × SigFrame) :=
  match f.signal with
  | none => Except.error "DataFrame must contain a Signal column."
  | some sig =>
    let n := sig.length
    let f1 : SigFrame :=
      { signal := some sig
        extra :=
          setCol (setCol (setCol (setCol (setCol f.extra
            "Rolling_Mean" (SigCol.qs ((List.range n).map (rollingMean sig w))))
            "Rolling_Std" (SigCol.rs ((List.range n).map (rollingStd sig w))))
            "Difference" (SigCol.qs ((List.range n).map (differenceAt sig w))))
            "Z_Score" (SigCol.rs ((List.range n).map (zScoreAt sig w))))
            "Is_Event" (SigCol.bs ((List.range n).map (isEventAt sig w t))) }
    Except.ok ((List.range n).filterMap (eventRowAt sig w t), f1)

/-- DataFrame for the OHLC analysis: High, Low, Close data plus the ordered
list of derived columns (NaN as `none`). -/
structure OHLCFrame where
  high : List ℚ
  low : List ℚ
  close : List ℚ
  extra : List (String × List (Option ℚ))
deriving DecidableEq

/-- Row count of the frame. -/
def OHLCFrame.len (f : OHLCFrame) : ℕ := f.high.length

/-- Well-formedness: the three data columns have the same length. -/
def OHLCFrame.WF (f : OHLCFrame) : Prop :=
  f.low.length = f.high.length ∧ f.close.length = f.high.length

/-- True range at index `i`: the rowwise NaN-skipping maximum of
`High - Low`, `abs (High - prev Close)`, `abs (Low - prev Close)`; at the
first row only the `High - Low` term is defined. -/
def trAt (f : OHLCFrame) (i : ℕ) : ℚ :=
  if i = 0 then
    f.high.getD 0 0 - f.low.getD 0 0
  else
    max (f.high.getD i 0 - f.low.getD i 0)
      (max |f.high.getD i 0 - f.close.getD (i - 1) 0|
        |f.low.getD i 0 - f.close.getD (i - 1) 0|)

/-- The TR column as a list. -/
def trList (f : OHLCFrame) : List ℚ := (List.range f.len).map (trAt f)

/-- Tail of the exponentially weighted mean with `adjust=False`: each output
is `(1 - a) * previous + a * x`. -/
def ewmFrom (a prev : ℚ) : List ℚ → List ℚ
  | [] => []
  | x :: xs => ((1 - a) * prev + a * x) :: ewmFrom a ((1 - a) * prev + a * x) xs

/-- pandas `ewm(span, adjust=False).mean()`: the first output equals the
first input. -/
def ewmAdjFalse (a : ℚ) : List ℚ → List ℚ
  | [] => []
  | x :: xs => x :: ewmFrom a x xs

/-- The ATR column: exponential moving average of TR with
`a = 2 / (period + 1)`. -/
def atrList (f : OHLCFrame) (period : ℕ) : List ℚ :=
  ewmAdjFalse (2 / ((period : ℚ) + 1)) (trList f)

/-- Embedding of `calculate_atr`: assigns the five derived columns onto the
frame passed in and returns `ATR.iloc[-1]` (`none` models the IndexError on
an empty frame).  The TR column is written here directly as the NaN-skipping
maximum of the three difference columns. -/
def calculate_atr (f : OHLCFrame) (period : ℕ) : OHLCFrame × Option ℚ :=
  let n := f.len
  let hl : List (Option ℚ) :=
    (List.range n).map (fun i => some (f.high.getD i 0 - f.low.getD i 0))
  let hpc : List (Option ℚ) :=
    (List.range n).map (fun i =>
      if i = 0 then none else some |f.high.getD i 0 - f.close.getD (i - 1) 0|)
  let lpc : List (Option ℚ) :=
    (List.range n).map (fun i =>
      if i = 0 then none else some |f.low.getD i 0 - f.close.getD (i - 1) 0|)
  let f1 : OHLCFrame :=
    { f with extra :=
        setCol (setCol (setCol (setCol (setCol f.extra
          "High-Low" hl) "High-PrevClose" hpc) "Low-PrevClose" lpc)
          "TR" ((trList f).map some)) "ATR" ((atrList f period).map some) }
  (f1, (atrList f period).getLast?)

/-- numpy `take` with `mode=clip`: the index is clamped into `[0, n-1]`. -/
def clipGet (xs : List ℚ) (j : ℤ) : ℚ :=
  xs.getD (Int.toNat (min (max j 0) ((xs.length : ℤ) - 1))) 0

/-- scipy `_boolrelextrema` at index `i`: the comparator holds between
`xs[i]` and the clipped neighbours at every shift `1 ≤ s ≤ order`. -/
def relOK (cmp : ℚ → ℚ → Bool) (xs : List ℚ) (order i : ℕ) : Bool :=
  (List.range order).all (fun k =>
    cmp (xs.getD i 0) (clipGet xs ((i : ℤ) + ((k : ℤ) + 1))) &&
    cmp (xs.getD i 0) (clipGet xs ((i : ℤ) - ((k : ℤ) + 1))))

/-- scipy `argrelextrema`: the ascending list of flagged indices. -/
def argrelextrema (cmp : ℚ → ℚ → Bool) (xs : List ℚ) (order : ℕ) : List ℕ :=
  (List.range xs.length).filter (relOK cmp xs order)

/-- Comparator `np.less_equal`. -/
def leB (a b : ℚ) : Bool := decide (a ≤ b)

/-- Comparator `np.greater_equal`. -/
def geB (a b : ℚ) : Bool := decide (b ≤ a)

/-- Pivot column: the data value at flagged indices, NaN elsewhere
(pandas aligns `data.iloc[idx][col]` on assignment). -/
def pivotCol (vals : List ℚ) (idxs : List ℕ) : List (Option ℚ) :=
  (List.range vals.length).map (fun i =>
    if i ∈ idxs then some (vals.getD i 0) else none)

/-- All pivot values pooled: low-pivot Low values then high-pivot High
values, in index order (`dropna().tolist()` concatenation). -/
def allPivotValues (f : OHLCFrame) : List ℚ :=
  (argrelextrema leB f.low 5).map (fun i => f.low.getD i 0) ++
    (argrelextrema geB f.high 5).map (fun i => f.high.getD i 0)

/-- Python `list.sort()` ascending. -/
def pySort (l : List ℚ) : List ℚ := l.insertionSort (· ≤ ·)

/-- The Python clustering loop over the (sorted) pivot list: appends a pivot
as a new level whenever it strictly exceeds `current + filt`, and that pivot
becomes the new current level. -/
def srLoop (filt : ℚ) : List ℚ → ℚ → List ℚ
  | [], _ => []
  | p :: ps, cur =>
    if cur + filt < p then p :: srLoop filt ps p else srLoop filt ps cur

/-- Levels accumulated by `get_sr_levels` before rounding: the first sorted
pivot, then the loop over the whole pivot list starting from it. -/
def codeSeeds (filt : ℚ) (l : List ℚ) : List ℚ :=
  match l with
  | [] => []
  | a :: _ => a :: srLoop filt l a

/-- Round-half-to-even to an integer (Python `round`). -/
def halfEven (q : ℚ) : ℤ :=
  if q - ⌊q⌋ < 1 / 2 then ⌊q⌋
  else if 1 / 2 < q - ⌊q⌋ then ⌊q⌋ + 1
  else if Even ⌊q⌋ then ⌊q⌋ else ⌊q⌋ + 1

/-- Python `round(x, 5)`. -/
def round5 (q : ℚ) : ℚ := (halfEven (q * 100000) : ℚ) / 100000

/-- Python `sorted(list(set(xs)))`: ascending list of the distinct values. -/
def sortedSet (l : List ℚ) : List ℚ := l.dedup.insertionSort (· ≤ ·)

/-- The `atr_filter` tolerance used by `get_sr_levels`: latest ATR (with the
standard period 14) times the multiplier. -/
def atrFilter (f : OHLCFrame) (m : ℚ) : ℚ :=
  ((atrList f 14).getLast?).getD 0 * m

/-- Embedding of `get_sr_levels`: pivot columns are assigned, the latest ATR
is computed (raising on an empty frame, modelled as `none`), the pooled
pivot values are sorted and clustered, and the rounded levels are returned
as a sorted set together with the mutated frame. -/
def get_sr_levels (f : OHLCFrame) (m : ℚ) : Option (List ℚ × OHLCFrame) :=
  let minIdx := argrelextrema leB f.low 5
  let maxIdx := argrelextrema geB f.high 5
  let e1 := setCol (setCol f.extra "min" (pivotCol f.low minIdx)) "max" (pivotCol f.high maxIdx)
  let f1 : OHLCFrame := { f with extra := e1 }
  let r := calculate_atr f1 14
  match r.2 with
  | none => none
  | some latestATR =>
    let filt := latestATR * m
    let allp := pySort (allPivotValues f)
    if allp = [] then some ([], r.1)
    else some (sortedSet ((codeSeeds filt allp).map round5), r.1)

/-- Low pivots as `(index, Low value)` pairs in chronological order, for a
given neighbourhood radius. -/
def lowPivotPairs (f : OHLCFrame) (order : ℕ) : List (ℕ × ℚ) :=
  (argrelextrema leB f.low order).map (fun i => (i, f.low.getD i 0))

/-- High pivots as `(index, High value)` pairs in chronological order. -/
def highPivotPairs (f : OHLCFrame) (order : ℕ) : List (ℕ × ℚ) :=
  (argrelextrema geB f.high order).map (fun i => (i, f.high.getD i 0))

/-- A trendline: name, two endpoints (row index paired with price), and the
visual style tag.  The source dict key `end` is a reserved word in Lean, so
the second endpoint is called `endp`. -/
structure Trendline where
  name : String
  start : ℕ × ℚ
  endp : ℕ × ℚ
  color : String
  style : String
  linewidth : ℚ
deriving DecidableEq

/-- Embedding of `get_trendlines`: pivot columns (order 20) are assigned
onto the frame, and for each pivot kind with at least two pivots the line
through the last two pivots is emitted with its fixed style. -/
def get_trendlines (f : OHLCFrame) : List Trendline × OHLCFrame :=
  let lowIdx := argrelextrema leB f.low 20
  let highIdx := argrelextrema geB f.high 20
  let e1 := setCol (setCol f.extra "Low_Pivot" (pivotCol f.low lowIdx)) "High_Pivot" (pivotCol f.high highIdx)
  let f1 : OHLCFrame := { f with extra := e1 }
  let lows := lowPivotPairs f 20
  let highs := highPivotPairs f 20
  let lows2 := lows.drop (lows.length - 2)
  let highs2 := highs.drop (highs.length - 2)
  let t1 : List Trendline :=
    if 2 ≤ lows.length then
      [⟨"Uptrend Support", lows2.getD 0 (0, 0), lows2.getD 1 (0, 0),
        "green", "--", 3 / 2⟩]
    else []
  let t2 : List Trendline :=
    if 2 ≤ highs.length then
      [⟨"Downtrend Resistance", highs2.getD 0 (0, 0), highs2.getD 1 (0, 0),
        "red", "--", 3 / 2⟩]
    else []
  (t1 ++ t2, f1)

/-- Levels component of `get_sr_levels`, ignoring the frame state. -/
def srLevelsOf (f : OHLCFrame) (m : ℚ) : Option (List ℚ) :=
  (get_sr_levels f m).map Prod.fst

/-- CLUSTER SEEDS written from the spec sentence: seed the first cluster
with the smallest value, scan the remaining pivots in ascending order,
start a new cluster exactly when a pivot strictly exceeds the current seed
plus the filter, and take that triggering pivot value as the new seed. -/
def specScan (filt : ℚ) : ℚ → List ℚ → List ℚ
  | _, [] => []
  | cur, x :: xs =>
    if cur + filt < x then x :: specScan filt x xs else specScan filt cur xs

/-- Cluster seeds per the spec wording (see `specScan`): the smallest pivot
seeds the first cluster and scanning proceeds over the remaining pivots. -/
def specClusterSeeds (filt : ℚ) : List ℚ → List ℚ
  | [] => []
  | a :: rest => a :: specScan filt a rest

/-- Whether `detect_sr_events` raises (reports an input error). -/
noncomputable def detectRaisesB (f : SigFrame) (w : ℕ) (t : ℚ) : Bool :=
  match detect_sr_events f w t with
  | Except.error _ => true
  | Except.ok _ => false

/-- Names of the derived columns of an OHLC frame, in order. -/
def OHLCFrame.colNames (f : OHLCFrame) : List String := f.extra.map Prod.fst

/-! ### Shared lemmas -/

/-- Clipped-neighbourhood characterisation of scipy `argrelextrema`
membership: for a reflexive comparator, index `i` is flagged iff the
comparison holds against every index of the symmetric radius-`order`
neighbourhood intersected with the valid index range. -/
theorem mem_argrelextrema_iff (cmp : ℚ → ℚ → Bool) (xs : List ℚ)
    (order i : ℕ) (hrefl : ∀ a, cmp a a = true) (hi : i < xs.length) :
    i ∈ argrelextrema cmp xs order ↔
      ∀ j, j < xs.length → i ≤ j + order → j ≤ i + order →
        cmp (xs.getD i 0) (xs.getD j 0) = true := by
  unfold argrelextrema relOK
  rw [List.mem_filter]
  simp only [List.mem_range, List.all_eq_true, Bool.and_eq_true]
  constructor
  · rintro ⟨-, H⟩ j hj hj1 hj2
    rcases lt_trichotomy i j with hlt | heq | hgt
    · obtain ⟨k, hk⟩ : ∃ k, i + k + 1 = j := ⟨j - i - 1, by omega⟩
      have hk2 : k < order := by omega
      have hcmp := (H k hk2).1
      have harg :
          Int.toNat (min (max ((i : ℤ) + ((k : ℤ) + 1)) 0)
            ((xs.length : ℤ) - 1)) = j := by omega
      rwa [clipGet, harg] at hcmp
    · subst heq; exact hrefl _
    · obtain ⟨k, hk⟩ : ∃ k, j + k + 1 = i := ⟨i - j - 1, by omega⟩
      have hk2 : k < order := by omega
      have hcmp := (H k hk2).2
      have harg :
          Int.toNat (min (max ((i : ℤ) - ((k : ℤ) + 1)) 0)
            ((xs.length : ℤ) - 1)) = j := by omega
      rwa [clipGet, harg] at hcmp
  · intro H
    refine ⟨hi, fun k hk2 => ⟨?_, ?_⟩⟩
    · rw [clipGet]
      exact H _ (by omega) (by omega) (by omega)
    · rw [clipGet]
      exact H _ (by omega) (by omega) (by omega)

/-- A global extremum index is always flagged by `argrelextrema` (the
clipped comparisons only ever reach valid indices). -/
theorem global_extremum_mem_argrel (cmp : ℚ → ℚ → Bool) (xs : List ℚ)
    (order i : ℕ) (hrefl : ∀ a, cmp a a = true) (hi : i < xs.length)
    (hglob : ∀ j, j < xs.length → cmp (xs.getD i 0) (xs.getD j 0) = true) :
    i ∈ argrelextrema cmp xs order :=
  (mem_argrelextrema_iff cmp xs order i hrefl hi).mpr
    (fun j hj _ _ => hglob j hj)

/-- A nonempty rational list has an index attaining its minimum. -/
theorem exists_min_index (xs : List ℚ) (h : xs ≠ []) :
    ∃ i, i < xs.length ∧ ∀ j, j < xs.length → xs.getD i 0 ≤ xs.getD j 0 := by
  obtain ⟨i, hi, hmin⟩ :=
    Finset.exists_min_image (Finset.range xs.length) (fun j => xs.getD j 0)
      ⟨0, Finset.mem_range.mpr (List.length_pos.mpr h)⟩
  exact ⟨i, Finset.mem_range.mp hi,
    fun j hj => hmin j (Finset.mem_range.mpr hj)⟩

/-- A nonempty rational list has an index attaining its maximum. -/
theorem exists_max_index (xs : List ℚ) (h : xs ≠ []) :
    ∃ i, i < xs.length ∧ ∀ j, j < xs.length → xs.getD j 0 ≤ xs.getD i 0 := by
  obtain ⟨i, hi, hmax⟩ :=
    Finset.exists_max_image (Finset.range xs.length) (fun j => xs.getD j 0)
      ⟨0, Finset.mem_range.mpr (List.length_pos.mpr h)⟩
  exact ⟨i, Finset.mem_range.mp hi,
    fun j hj => hmax j (Finset.mem_range.mpr hj)⟩

theorem ewmFrom_length (a prev : ℚ) (l : List ℚ) :
    (ewmFrom a prev l).length = l.length := by
  induction l generalizing prev with
  | nil => rfl
  | cons x xs ih => simp [ewmFrom, ih]

theorem ewmAdjFalse_length (a : ℚ) (l : List ℚ) :
    (ewmAdjFalse a l).length = l.length := by
  cases l with
  | nil => rfl
  | cons x xs => simp [ewmAdjFalse, ewmFrom_length]

theorem atrList_length (f : OHLCFrame) (p : ℕ) :
    (atrList f p).length = f.len := by
  simp [atrList, ewmAdjFalse_length, trList]

theorem atrList_extra (f : OHLCFrame) (e : List (String × List (Option ℚ)))
    (p : ℕ) : atrList { f with extra := e } p = atrList f p := rfl

theorem calculate_atr_snd (f : OHLCFrame) (p : ℕ) :
    (calculate_atr f p).2 = (atrList f p).getLast? := rfl

theorem pySort_sorted (l : List ℚ) : List.Sorted (· ≤ ·) (pySort l) :=
  List.sorted_insertionSort _ l

theorem pySort_perm (l : List ℚ) : (pySort l).Perm l :=
  List.perm_insertionSort _ l

theorem mem_pySort (l : List ℚ) (x : ℚ) : x ∈ pySort l ↔ x ∈ l :=
  (pySort_perm l).mem_iff

theorem mem_sortedSet (l : List ℚ) (x : ℚ) : x ∈ sortedSet l ↔ x ∈ l := by
  rw [sortedSet, (List.perm_insertionSort _ l.dedup).mem_iff, List.mem_dedup]

theorem sortedSet_nodup (l : List ℚ) : (sortedSet l).Nodup :=
  (List.perm_insertionSort _ l.dedup).nodup_iff.mpr (List.nodup_dedup l)

theorem sortedSet_sorted (l : List ℚ) : List.Sorted (· ≤ ·) (sortedSet l) :=
  List.sorted_insertionSort _ l.dedup

/-- The sorted set of values is determined by membership alone. -/
theorem sortedSet_eq_of_mem_iff (l1 l2 : List ℚ)
    (h : ∀ x, x ∈ l1 ↔ x ∈ l2) : sortedSet l1 = sortedSet l2 := by
  refine List.eq_of_perm_of_sorted ?_ (sortedSet_sorted l1) (sortedSet_sorted l2)
  refine (List.perm_ext_iff_of_nodup (sortedSet_nodup l1) (sortedSet_nodup l2)).mpr ?_
  intro x
  rw [mem_sortedSet, mem_sortedSet]
  exact h x

theorem srLoop_eq_specScan (filt : ℚ) (l : List ℚ) (cur : ℚ) :
    srLoop filt l cur = specScan filt cur l := by
  induction l generalizing cur with
  | nil => rfl
  | cons x xs ih =>
    simp only [srLoop, specScan]
    split <;> rw [ih]

theorem srLoop_subset (filt : ℚ) :
    ∀ (l : List ℚ) (cur : ℚ), ∀ s ∈ srLoop filt l cur, s ∈ l
  | [], _ => by simp [srLoop]
  | x :: xs, cur => by
    intro s hs
    simp only [srLoop] at hs
    split at hs
    · rcases List.mem_cons.mp hs with rfl | hs'
      · exact List.mem_cons_self _ _
      · exact List.mem_cons_of_mem _ (srLoop_subset filt xs x s hs')
    · exact List.mem_cons_of_mem _ (srLoop_subset filt xs cur s hs)

theorem srLoop_pairwise (filt : ℚ) :
    ∀ (l : List ℚ) (cur : ℚ), List.Sorted (· ≤ ·) l → (∀ x ∈ l, cur ≤ x) →
      List.Pairwise (fun s1 s2 => s1 ≤ s2 ∧ (s1 + filt < s2 ∨ s1 = s2))
        (cur :: srLoop filt l cur)
  | [], cur, _, _ => by simp [srLoop]
  | x :: xs, cur, hs, hcur => by
    rw [List.sorted_cons] at hs
    obtain ⟨hx, hxs⟩ := hs
    have hcx : cur ≤ x := hcur x (List.mem_cons_self x xs)
    simp only [srLoop]
    split
    · rename_i h
      have ihp := srLoop_pairwise filt xs x hxs hx
      rw [List.pairwise_cons] at ihp
      rw [List.pairwise_cons]
      refine ⟨?_, List.pairwise_cons.mpr ihp⟩
      intro y hy
      rcases List.mem_cons.mp hy with rfl | hy'
      · exact ⟨hcx, Or.inl h⟩
      · have hxy := ihp.1 y hy'
        exact ⟨hcx.trans hxy.1, Or.inl (lt_of_lt_of_le h hxy.1)⟩
    · rename_i h
      exact srLoop_pairwise filt xs cur hxs (fun y hy => hcx.trans (hx y hy))

theorem srLoop_cover (filt : ℚ) :
    ∀ (l : List ℚ) (cur : ℚ), List.Sorted (· ≤ ·) l → (∀ x ∈ l, cur ≤ x) →
      0 ≤ filt → ∀ v ∈ l, ∃ s ∈ cur :: srLoop filt l cur, s ≤ v ∧ v ≤ s + filt
  | [], _, _, _, _ => by simp
  | x :: xs, cur, hs, hcur, hf => by
    rw [List.sorted_cons] at hs
    obtain ⟨hx, hxs⟩ := hs
    have hcx : cur ≤ x := hcur x (List.mem_cons_self x xs)
    intro v hv
    simp only [srLoop]
    split
    · rename_i h
      rcases List.mem_cons.mp hv with rfl | hv'
      · exact ⟨v, List.mem_cons_of_mem _ (List.mem_cons_self _ _),
          le_refl _, by linarith⟩
      · obtain ⟨s, hsmem, h1, h2⟩ :=
          srLoop_cover filt xs x hxs hx hf v hv'
        exact ⟨s, List.mem_cons.mpr (Or.inr hsmem), h1, h2⟩
    · rename_i h
      push_neg at h
      rcases List.mem_cons.mp hv with rfl | hv'
      · exact ⟨cur, List.mem_cons_self _ _, hcx, h⟩
      · exact srLoop_cover filt xs cur hxs
          (fun y hy => hcx.trans (hx y hy)) hf v hv'

theorem codeSeeds_subset (filt : ℚ) (l : List ℚ) :
    ∀ s ∈ codeSeeds filt l, s ∈ l := by
  cases l with
  | nil => simp [codeSeeds]
  | cons a rest =>
    intro s hs
    rcases List.mem_cons.mp hs with rfl | hs'
    · exact List.mem_cons_self _ _
    · exact srLoop_subset filt (a :: rest) a s hs'

theorem codeSeeds_head_lb (l : List ℚ) (hs : List.Sorted (· ≤ ·) l) :
    ∀ a, l = a :: l.tail → ∀ x ∈ l, a ≤ x := by
  intro a ha x hx
  rw [ha, List.sorted_cons] at hs
  rcases List.mem_cons.mp (ha ▸ hx) with rfl | hx'
  · exact le_refl _
  · exact hs.1 x hx'

theorem codeSeeds_pairwise (filt : ℚ) (l : List ℚ)
    (hs : List.Sorted (· ≤ ·) l) :
    List.Pairwise (fun s1 s2 => s1 ≤ s2 ∧ (s1 + filt < s2 ∨ s1 = s2))
      (codeSeeds filt l) := by
  cases l with
  | nil => simp [codeSeeds]
  | cons a rest =>
    exact srLoop_pairwise filt (a :: rest) a hs
      (codeSeeds_head_lb (a :: rest) hs a rfl)

theorem codeSeeds_cover (filt : ℚ) (l : List ℚ)
    (hs : List.Sorted (· ≤ ·) l) (hf : 0 ≤ filt) :
    ∀ v ∈ l, ∃ s ∈ codeSeeds filt l, s ≤ v ∧ v ≤ s + filt := by
  cases l with
  | nil => simp
  | cons a rest =>
    exact srLoop_cover filt (a :: rest) a hs
      (codeSeeds_head_lb (a :: rest) hs a rfl) hf

/-- Distinct entries of the accumulated level list are strictly more than
the filter apart. -/
theorem codeSeeds_sep (filt : ℚ) (l : List ℚ)
    (hs : List.Sorted (· ≤ ·) l) :
    ∀ s1 ∈ codeSeeds filt l, ∀ s2 ∈ codeSeeds filt l, s1 ≠ s2 →
      filt < |s1 - s2| := by
  have hpw := codeSeeds_pairwise filt l hs
  have hpw2 : List.Pairwise (fun s1 s2 => s1 ≠ s2 → filt < |s1 - s2|)
      (codeSeeds filt l) := by
    refine hpw.imp ?_
    rintro a b ⟨hab, hor | heq⟩
    · intro _
      rw [abs_sub_comm, abs_of_nonneg (by linarith)]
      linarith
    · intro hne
      exact absurd heq hne
  intro s1 h1 s2 h2 hne
  have hsymm : Symmetric (fun s1 s2 : ℚ => s1 ≠ s2 → filt < |s1 - s2|) := by
    intro a b hab hba
    rw [abs_sub_comm]
    exact hab hba.symm
  exact hpw2.forall hsymm h1 h2 hne hne

theorem getCol_setCol_ne {α : Type} (l : List (String × α)) (nm nm2 : String)
    (c : α) (h : nm2 ≠ nm) : getCol (setCol l nm c) nm2 = getCol l nm2 := by
  induction l with
  | nil =>
    simp only [setCol, getCol]
    rw [if_neg (fun he => h (he.symm))]
  | cons p rest ih =>
    obtain ⟨nm0, c0⟩ := p
    simp only [setCol]
    split
    · rename_i he
      subst he
      simp only [getCol]
      rw [if_neg (fun he2 => h (he2.symm)), if_neg (fun he2 => h (he2.symm))]
    · simp only [getCol]
      split
      · rfl
      · exact ih

/-- Structural form of `get_sr_levels` on a nonempty frame: the latest ATR
exists, and the result is the sorted set of the rounded accumulated
levels, paired with the frame mutated by the pivot columns and the ATR
columns. -/
theorem get_sr_levels_some (f : OHLCFrame) (m : ℚ) (h : 1 ≤ f.len) :
    get_sr_levels f m =
      some (sortedSet ((codeSeeds (atrFilter f m)
          (pySort (allPivotValues f))).map round5),
        (calculate_atr { f with extra := (setCol (setCol f.extra "min"
          (pivotCol f.low (argrelextrema leB f.low 5))) "max"
          (pivotCol f.high (argrelextrema geB f.high 5))) } 14).1) := by
  have hne : atrList f 14 ≠ [] := by
    apply List.ne_nil_of_length_pos
    rw [atrList_length]
    omega
  obtain ⟨a, ha⟩ : ∃ a, (atrList f 14).getLast? = some a := by
    rcases hh : (atrList f 14).getLast? with _ | a
    · exact absurd (List.getLast?_eq_none_iff.mp hh) hne
    · exact ⟨a, rfl⟩
  have hfilt : atrFilter f m = a * m := by
    rw [atrFilter, ha]
    rfl
  unfold get_sr_levels
  dsimp only
  rw [calculate_atr_snd, atrList_extra, ha]
  by_cases hq : pySort (allPivotValues f) = []
  · simp only [hq, if_pos rfl]
    simp [codeSeeds, sortedSet]
  · simp only [if_neg hq]
    rw [hfilt]

/-- The pivot pool of a well-formed nonempty frame is nonempty: the global
Low minimum is always a low pivot. -/
theorem allPivotValues_ne_nil (f : OHLCFrame) (hWF : f.WF) (hn : 1 ≤ f.len) :
    allPivotValues f ≠ [] := by
  have hlow : f.low ≠ [] := by
    intro hc
    have h1 := hWF.1
    rw [hc] at h1
    unfold OHLCFrame.len at hn
    simp at h1
    omega
  obtain ⟨i, hi, hmin⟩ := exists_min_index f.low hlow
  have hpiv : i ∈ argrelextrema leB f.low 5 :=
    global_extremum_mem_argrel leB f.low 5 i (fun a => by simp [leB]) hi
      (fun j hj => by simp only [leB, decide_eq_true_eq]; exact hmin j hj)
  intro hc
  have hmem : f.low.getD i 0 ∈ allPivotValues f :=
    List.mem_append_left _ (List.mem_map_of_mem _ hpiv)
  rw [hc] at hmem
  simp at hmem

/-- A well-formed nonempty frame always yields a nonempty level list. -/
theorem srLevels_nonempty (f : OHLCFrame) (m : ℚ) (hWF : f.WF)
    (hn : 1 ≤ f.len) :
    ∃ L f2, get_sr_levels f m = some (L, f2) ∧ L ≠ [] := by
  refine ⟨_, _, get_sr_levels_some f m hn, ?_⟩
  have hp := allPivotValues_ne_nil f hWF hn
  obtain ⟨v, hv⟩ := List.exists_mem_of_ne_nil _ hp
  have hv2 : v ∈ pySort (allPivotValues f) := (mem_pySort _ _).mpr hv
  rcases hq : pySort (allPivotValues f) with _ | ⟨a, rest⟩
  · rw [hq] at hv2
    simp at hv2
  · intro hc
    have hmem : round5 a ∈ sortedSet
        ((codeSeeds (atrFilter f m) (pySort (allPivotValues f))).map round5) := by
      rw [mem_sortedSet]
      refine List.mem_map_of_mem _ ?_
      rw [hq]
      exact List.mem_cons_self _ _
    rw [hq] at hmem
    rw [hc] at hmem
    simp at hmem

/-- `get_trendlines` emits at most two trendlines. -/
theorem trendlines_length_le (f : OHLCFrame) :
    (get_trendlines f).1.length ≤ 2 := by
  unfold get_trendlines
  dsimp only
  split <;> split <;> simp

/-- `get_sr_levels` on an empty frame fails: the code indexes
`ATR.iloc[-1]` of an empty column. -/
theorem get_sr_levels_empty (m : ℚ) :
    get_sr_levels { high := [], low := [], close := [], extra := [] } m
      = none := rfl

/-! ### Claim theorems -/

/-- C3: index `i` is detected as a low-pivot iff its Low value is less
than or equal to every Low value in the symmetric radius-`order`
neighbourhood intersected with the valid index range, and symmetrically
(greater than or equal) for high-pivots over the High series; the tests
are non-strict, so every member of a flat plateau qualifies. -/
theorem pivot_detection_iff (low high : List ℚ) (order i : ℕ)
    (hiL : i < low.length) (hiH : i < high.length) :
    (i ∈ argrelextrema leB low order ↔
      ∀ j, j < low.length → i ≤ j + order → j ≤ i + order →
        low.getD i 0 ≤ low.getD j 0) ∧
    (i ∈ argrelextrema geB high order ↔
      ∀ j, j < high.length → i ≤ j + order → j ≤ i + order →
        high.getD j 0 ≤ high.getD i 0) := by
  constructor
  · rw [mem_argrelextrema_iff leB low order i (fun a => by simp [leB]) hiL]
    simp only [leB, decide_eq_true_eq]
  · rw [mem_argrelextrema_iff geB high order i (fun a => by simp [geB]) hiH]
    simp only [geB, decide_eq_true_eq]

/-- Witness for C3: on the series `[3, 1, 2]` with order 1, index 1 is a
pivot because it is a local minimum. -/
theorem pivot_detection_iff_witness :
    1 ∈ argrelextrema leB [3, 1, 2] 1 :=
  (pivot_detection_iff [3, 1, 2] [3, 1, 2] 1 1 (by decide) (by decide)).1.mpr
    (by decide)

/-- C10: every index attaining the global Low minimum is detected as a
low-pivot and every index attaining the global High maximum as a
high-pivot (the clipped neighbourhood never empties the pivot set), and
`get_sr_levels` returns at least one level on a nonempty well-formed
frame with a nonnegative ATR filter. -/
theorem global_extrema_are_pivots (f : OHLCFrame) (m : ℚ) (hWF : f.WF)
    (hn : 1 ≤ f.len) (hfilt : 0 ≤ atrFilter f m) :
    (∀ i, i < f.low.length →
      (∀ j, j < f.low.length → f.low.getD i 0 ≤ f.low.getD j 0) →
      i ∈ argrelextrema leB f.low 5) ∧
    (∀ i, i < f.high.length →
      (∀ j, j < f.high.length → f.high.getD j 0 ≤ f.high.getD i 0) →
      i ∈ argrelextrema geB f.high 5) ∧
    (∃ L f2, get_sr_levels f m = some (L, f2) ∧ L ≠ []) := by
  refine ⟨?_, ?_, srLevels_nonempty f m hWF hn⟩
  · intro i hi hmin
    exact global_extremum_mem_argrel leB f.low 5 i (fun a => by simp [leB]) hi
      (fun j hj => by simp only [leB, decide_eq_true_eq]; exact hmin j hj)
  · intro i hi hmax
    exact global_extremum_mem_argrel geB f.high 5 i (fun a => by simp [geB]) hi
      (fun j hj => by simp only [geB, decide_eq_true_eq]; exact hmax j hj)

/-- Witness for C10 at a one-row frame. -/
theorem global_extrema_are_pivots_witness :
    ∃ L f2, get_sr_levels (OHLCFrame.mk [1] [1] [1] []) 1
      = some (L, f2) ∧ L ≠ [] :=
  (global_extrema_are_pivots (OHLCFrame.mk [1] [1] [1] []) 1
    ⟨rfl, rfl⟩ (by decide)
    (by simp [atrFilter, atrList, trList, trAt, OHLCFrame.len,
      List.range_succ, ewmAdjFalse, ewmFrom])).2.2

/-- C5 (amended): a well-formed series with between 1 and `2*order` (= 10)
observations does not yield an empty pivot set — the scipy neighbourhoods
are clipped, so both pivot lists are nonempty, `get_sr_levels` succeeds
with a nonempty level list, and `get_trendlines` succeeds with at most two
trendlines; only the empty frame makes `get_sr_levels` fail (it indexes
the last ATR value). -/
theorem short_series_behavior (f : OHLCFrame) (m : ℚ) (hWF : f.WF)
    (hn : 1 ≤ f.len) (hshort : f.len < 11) :
    argrelextrema leB f.low 5 ≠ [] ∧
    argrelextrema geB f.high 5 ≠ [] ∧
    (∃ L f2, get_sr_levels f m = some (L, f2) ∧ L ≠ []) ∧
    (get_trendlines f).1.length ≤ 2 ∧
    get_sr_levels (OHLCFrame.mk [] [] [] []) m = none := by
  have hlow : f.low ≠ [] := by
    intro hc
    have h1 := hWF.1
    rw [hc] at h1
    unfold OHLCFrame.len at hn
    simp at h1
    omega
  have hhigh : f.high ≠ [] := by
    intro hc
    unfold OHLCFrame.len at hn
    rw [hc] at hn
    simp at hn
  refine ⟨?_, ?_, srLevels_nonempty f m hWF hn, trendlines_length_le f,
    get_sr_levels_empty m⟩
  · obtain ⟨i, hi, hmin⟩ := exists_min_index f.low hlow
    exact List.ne_nil_of_mem
      (global_extremum_mem_argrel leB f.low 5 i (fun a => by simp [leB]) hi
        (fun j hj => by simp only [leB, decide_eq_true_eq]; exact hmin j hj))
  · obtain ⟨i, hi, hmax⟩ := exists_max_index f.high hhigh
    exact List.ne_nil_of_mem
      (global_extremum_mem_argrel geB f.high 5 i (fun a => by simp [geB]) hi
        (fun j hj => by simp only [geB, decide_eq_true_eq]; exact hmax j hj))

/-- Witness for C5 (amended) at a one-row frame. -/
theorem short_series_behavior_witness :
    argrelextrema leB ((OHLCFrame.mk [1] [1] [1] []).low) 5 ≠ [] :=
  (short_series_behavior (OHLCFrame.mk [1] [1] [1] []) 1 ⟨rfl, rfl⟩
    (by decide) (by decide)).1

/-- Counterexample to C5 as stated: a one-observation OHLC frame is
shorter than `2*order+1 = 11`, yet its pivot set is nonempty (index 0 is a
pivot) and `get_sr_levels` returns a nonempty level list rather than the
empty one. -/
theorem short_series_nonempty_levels :
    argrelextrema leB [(1 : ℚ)] 5 = [0] ∧
    srLevelsOf (OHLCFrame.mk [2] [1] [1] []) 1 = some [1] := by
  refine ⟨by decide, ?_⟩
  rw [srLevelsOf, get_sr_levels_some _ _ (by decide)]
  have h1 : allPivotValues (OHLCFrame.mk [2] [1] [1] []) = [1, 2] := by decide
  have h2 : atrFilter (OHLCFrame.mk [2] [1] [1] []) 1 = 1 := by
    norm_num [atrFilter, atrList, trList, trAt, OHLCFrame.len,
      List.range_succ, ewmAdjFalse, ewmFrom]
  rw [h1, h2]
  have h3 : pySort [(1 : ℚ), 2] = [1, 2] := by
    norm_num [pySort, List.insertionSort, List.orderedInsert]
  rw [h3]
  have h4 : codeSeeds 1 [(1 : ℚ), 2] = [1] := by
    norm_num [codeSeeds, srLoop]
  rw [h4]
  have h5 : round5 (1 : ℚ) = 1 := by
    norm_num [round5, halfEven]
  simp [h5, sortedSet, List.insertionSort, List.orderedInsert]

/-- On a one-observation series every index is flagged by a reflexive
comparator: all clipped comparisons are against the value itself. -/
theorem argrel_singleton (cmp : ℚ → ℚ → Bool) (x : ℚ) (order : ℕ)
    (hrefl : cmp x x = true) : argrelextrema cmp [x] order = [0] := by
  unfold argrelextrema
  have hok : relOK cmp [x] order 0 = true := by
    unfold relOK
    rw [List.all_eq_true]
    intro k _
    have hclip : ∀ j : ℤ, clipGet [x] j = x := by
      intro j
      unfold clipGet
      have hmin : min (max j 0) ((([x] : List ℚ).length : ℤ) - 1) = 0 := by
        simp
      rw [hmin]
      rfl
    rw [hclip, hclip, List.getD_cons_zero, hrefl]
    rfl
  simp [List.range_succ, List.filter, hok]

/-- The level accumulation of the source loop and the spec clustering have
the same members: the loop revisits the head pivot, which can only append
a duplicate of the seed. -/
theorem codeSeeds_mem_iff_spec (filt : ℚ) (l : List ℚ) (x : ℚ) :
    x ∈ codeSeeds filt l ↔ x ∈ specClusterSeeds filt l := by
  cases l with
  | nil => simp [codeSeeds, specClusterSeeds]
  | cons a rest =>
    simp only [codeSeeds, specClusterSeeds]
    rw [show srLoop filt (a :: rest) a =
      if a + filt < a then a :: srLoop filt rest a else srLoop filt rest a
      from rfl]
    rw [srLoop_eq_specScan filt rest a]
    split
    · simp only [List.mem_cons]
      tauto
    · exact Iff.rfl

/-- C2: with at least one pivot, `get_sr_levels` returns exactly the
ascending deduplicated 5-decimal roundings of the spec clustering seeds of
the ascending pivot pool: the smallest pivot seeds the first cluster, a
new cluster starts exactly when a pivot strictly exceeds the current seed
plus `atr_multiplier * latest ATR`, and the triggering raw pivot value is
the new seed. -/
theorem levels_eq_spec_clustering (f : OHLCFrame) (m : ℚ) (hWF : f.WF)
    (hp : allPivotValues f ≠ []) :
    ∃ f2, get_sr_levels f m =
      some (sortedSet ((specClusterSeeds (atrFilter f m)
        (pySort (allPivotValues f))).map round5), f2) := by
  have hn : 1 ≤ f.len := by
    obtain ⟨v, hv⟩ := List.exists_mem_of_ne_nil _ hp
    rcases List.mem_append.mp hv with h1 | h1
    · obtain ⟨i, hi, -⟩ := List.mem_map.mp h1
      unfold argrelextrema at hi
      have h2 := List.mem_range.mp (List.mem_filter.mp hi).1
      have h3 := hWF.1
      unfold OHLCFrame.len
      omega
    · obtain ⟨i, hi, -⟩ := List.mem_map.mp h1
      unfold argrelextrema at hi
      have h2 := List.mem_range.mp (List.mem_filter.mp hi).1
      unfold OHLCFrame.len
      omega
  have hmem : ∀ x, x ∈ (codeSeeds (atrFilter f m)
        (pySort (allPivotValues f))).map round5 ↔
      x ∈ (specClusterSeeds (atrFilter f m)
        (pySort (allPivotValues f))).map round5 := by
    intro x
    simp only [List.mem_map]
    constructor
    · rintro ⟨y, hy, rfl⟩
      exact ⟨y, (codeSeeds_mem_iff_spec _ _ y).mp hy, rfl⟩
    · rintro ⟨y, hy, rfl⟩
      exact ⟨y, (codeSeeds_mem_iff_spec _ _ y).mpr hy, rfl⟩
  exact ⟨_, (get_sr_levels_some f m hn).trans
    (by rw [sortedSet_eq_of_mem_iff _ _ hmem])⟩

/-- Witness for C2 at a one-row frame with pivots `[1, 2]`. -/
theorem levels_eq_spec_clustering_witness :
    ∃ f2, get_sr_levels (OHLCFrame.mk [2] [1] [1] []) 1 =
      some (sortedSet ((specClusterSeeds
        (atrFilter (OHLCFrame.mk [2] [1] [1] []) 1)
        (pySort (allPivotValues (OHLCFrame.mk [2] [1] [1] [])))).map round5),
        f2) :=
  levels_eq_spec_clustering (OHLCFrame.mk [2] [1] [1] []) 1 ⟨rfl, rfl⟩
    (by decide)

/-- Round-half-to-even moves a value by at most one half. -/
theorem halfEven_close (q : ℚ) : |(halfEven q : ℚ) - q| ≤ 1 / 2 := by
  have h0 : ((⌊q⌋ : ℤ) : ℚ) ≤ q := Int.floor_le q
  have h1 : q < ((⌊q⌋ : ℤ) : ℚ) + 1 := Int.lt_floor_add_one q
  unfold halfEven
  split_ifs with hc1 hc2 hc3
  · rw [abs_of_nonpos (by linarith)]
    linarith
  · push_cast
    rw [abs_of_nonneg (by linarith)]
    linarith
  · rw [abs_of_nonpos (by linarith)]
    linarith
  · push_cast
    rw [abs_of_nonneg (by linarith)]
    linarith

/-- Rounding to 5 decimal digits moves a value by at most `1/200000`. -/
theorem round5_close (q : ℚ) : |round5 q - q| ≤ 1 / 200000 := by
  have h := halfEven_close (q * 100000)
  rw [round5]
  have heq : (halfEven (q * 100000) : ℚ) / 100000 - q =
      ((halfEven (q * 100000) : ℚ) - q * 100000) / 100000 := by
    ring
  rw [heq, abs_div]
  rw [abs_of_pos (show (0 : ℚ) < 100000 by norm_num)]
  rw [div_le_iff₀ (show (0 : ℚ) < 100000 by norm_num)]
  linarith

/-- C7 (amended): distinct entries of the accumulated (unrounded) level
list are strictly more than `atr_multiplier * latest ATR` apart; for a
nonnegative filter every pivot value `v` satisfies
`seed ≤ v ≤ seed + filter` for some accumulated level; and two distinct
returned (5-decimal rounded) levels are strictly more than
`filter - 1/100000` apart — the rounding can bring them below the filter
itself, which is why the original claim fails. -/
theorem levels_separation (f : OHLCFrame) (m : ℚ) :
    (∀ s1 ∈ codeSeeds (atrFilter f m) (pySort (allPivotValues f)),
      ∀ s2 ∈ codeSeeds (atrFilter f m) (pySort (allPivotValues f)),
        s1 ≠ s2 → atrFilter f m < |s1 - s2|) ∧
    (0 ≤ atrFilter f m → ∀ v ∈ allPivotValues f,
      ∃ s ∈ codeSeeds (atrFilter f m) (pySort (allPivotValues f)),
        s ≤ v ∧ v ≤ s + atrFilter f m) ∧
    (∀ L f2, get_sr_levels f m = some (L, f2) →
      ∀ l1 ∈ L, ∀ l2 ∈ L, l1 ≠ l2 →
        atrFilter f m - 1 / 100000 < |l1 - l2|) := by
  refine ⟨codeSeeds_sep _ _ (pySort_sorted _), ?_, ?_⟩
  · intro hf v hv
    exact codeSeeds_cover _ _ (pySort_sorted _) hf v ((mem_pySort _ _).mpr hv)
  · intro L f2 hL l1 h1 l2 h2 hne
    have hn : 1 ≤ f.len := by
      by_contra hcon
      have h0 : atrList f 14 = [] := by
        apply List.length_eq_zero.mp
        rw [atrList_length]
        omega
      have hnone : get_sr_levels f m = none := by
        unfold get_sr_levels
        dsimp only
        rw [calculate_atr_snd, atrList_extra, h0]
        rfl
      rw [hL] at hnone
      cases hnone
    have heq := (get_sr_levels_some f m hn).symm.trans hL
    have hLval : L = sortedSet ((codeSeeds (atrFilter f m)
        (pySort (allPivotValues f))).map round5) :=
      ((Prod.mk.injEq _ _ _ _).mp (Option.some.inj heq)).1.symm
    subst hLval
    obtain ⟨s1, hs1, rfl⟩ := List.mem_map.mp ((mem_sortedSet _ _).mp h1)
    obtain ⟨s2, hs2, rfl⟩ := List.mem_map.mp ((mem_sortedSet _ _).mp h2)
    have hss : s1 ≠ s2 := fun hcon => hne (by rw [hcon])
    have hsep := codeSeeds_sep _ _ (pySort_sorted _) s1 hs1 s2 hs2 hss
    have hr1 := round5_close s1
    have hr2 := round5_close s2
    have ht1 := abs_sub_le s1 (round5 s1) s2
    have ht2 := abs_sub_le (round5 s1) (round5 s2) s2
    have hc1 : |s1 - round5 s1| = |round5 s1 - s1| := abs_sub_comm _ _
    have hc2 : |round5 s2 - s2| = |round5 s2 - s2| := rfl
    linarith

/-- Witness for C7 (amended) at a one-row flat frame: the single pivot 1
is covered by a seed. -/
theorem levels_separation_witness :
    ∃ s ∈ codeSeeds (atrFilter (OHLCFrame.mk [1] [1] [1] []) 1)
      (pySort (allPivotValues (OHLCFrame.mk [1] [1] [1] []))),
      s ≤ 1 ∧ 1 ≤ s + atrFilter (OHLCFrame.mk [1] [1] [1] []) 1 :=
  (levels_separation (OHLCFrame.mk [1] [1] [1] []) 1).2.1
    (by simp [atrFilter, atrList, trList, trAt, OHLCFrame.len,
      List.range_succ, ewmAdjFalse, ewmFrom])
    1 (by decide)

/-- Counterexample to C7 as stated: on a one-row frame with Low 0.099999
and High 0.6000115, the multiplier is chosen so that the filter is
exactly 0.500012; the two pivots form two clusters whose seeds are
0.500012**5** apart, but after rounding to 5 decimals the two returned
levels 0.10000 and 0.60001 differ by only 0.50001, strictly less than the
filter. -/
theorem rounded_levels_below_filter :
    srLevelsOf (OHLCFrame.mk [1200023/2000000] [99999/1000000] [1/2] [])
        (1000024/1000025) = some [1/10, 60001/100000] ∧
    (1/10 : ℚ) ≠ 60001/100000 ∧
    |(1/10 : ℚ) - 60001/100000| <
      atrFilter (OHLCFrame.mk [1200023/2000000] [99999/1000000] [1/2] [])
        (1000024/1000025) := by
  have hfilt : atrFilter
      (OHLCFrame.mk [1200023/2000000] [99999/1000000] [1/2] [])
      (1000024/1000025) = 625015/1250000 := by
    norm_num [atrFilter, atrList, trList, trAt, OHLCFrame.len,
      List.range_succ, ewmAdjFalse, ewmFrom]
  refine ⟨?_, by norm_num, ?_⟩
  · rw [srLevelsOf, get_sr_levels_some _ _ (by decide)]
    have hpv : allPivotValues
        (OHLCFrame.mk [1200023/2000000] [99999/1000000] [1/2] []) =
        [99999/1000000, 1200023/2000000] := by
      unfold allPivotValues
      rw [argrel_singleton leB _ 5 (by simp [leB]),
          argrel_singleton geB _ 5 (by simp [geB])]
      rfl
    rw [hpv, hfilt]
    have hsort : pySort [(99999:ℚ)/1000000, 1200023/2000000] =
        [99999/1000000, 1200023/2000000] := by
      norm_num [pySort, List.insertionSort, List.orderedInsert]
    rw [hsort]
    have hseeds : codeSeeds (625015/1250000)
        [(99999:ℚ)/1000000, 1200023/2000000] =
        [99999/1000000, 1200023/2000000] := by
      norm_num [codeSeeds, srLoop]
    rw [hseeds]
    have hr1 : round5 ((99999:ℚ)/1000000) = 1/10 := by
      norm_num [round5, halfEven]
    have hr2 : round5 ((1200023:ℚ)/2000000) = 60001/100000 := by
      norm_num [round5, halfEven]
    have hmap : ([(99999:ℚ)/1000000, 1200023/2000000]).map round5 =
        [1/10, 60001/100000] := by
      rw [List.map_cons, List.map_cons, List.map_nil, hr1, hr2]
    rw [hmap]
    norm_num [sortedSet, List.dedup_cons_of_not_mem, List.insertionSort,
      List.orderedInsert]
  · rw [hfilt, abs_sub_comm,
      abs_of_nonneg (by norm_num : (0:ℚ) ≤ 60001/100000 - 1/10)]
    norm_num

theorem getD_drop (l : List (ℕ × ℚ)) (n i : ℕ) (h : n + i < l.length) :
    (l.drop n).getD i (0, 0) = l.getD (n + i) (0, 0) := by
  rw [List.getD_eq_getElem _ _ (by rw [List.length_drop]; omega),
    List.getD_eq_getElem _ _ h, List.getElem_drop]

/-- `argrelextrema` returns a strictly increasing index list. -/
theorem argrel_pairwise (cmp : ℚ → ℚ → Bool) (xs : List ℚ) (order : ℕ) :
    List.Pairwise (· < ·) (argrelextrema cmp xs order) :=
  List.Pairwise.sublist (List.filter_sublist _) (List.pairwise_lt_range _)

theorem mapped_pairs_fst_lt (idx : List ℕ) (g : ℕ → ℚ)
    (hpw : List.Pairwise (· < ·) idx) (k1 k2 : ℕ) (h : k1 < k2)
    (h2 : k2 < (idx.map (fun i => (i, g i))).length) :
    ((idx.map (fun i => (i, g i))).getD k1 (0, 0)).1 <
      ((idx.map (fun i => (i, g i))).getD k2 (0, 0)).1 := by
  have hpw2 : List.Pairwise (fun a b => a.1 < b.1)
      (idx.map (fun i => (i, g i))) :=
    List.pairwise_map.mpr (hpw.imp (fun hab => hab))
  have h1 : k1 < (idx.map (fun i => (i, g i))).length := by omega
  rw [List.getD_eq_getElem _ _ h1, List.getD_eq_getElem _ _ h2]
  exact List.pairwise_iff_getElem.mp hpw2 k1 k2 h1 h2 h

/-- Trendline endpoints are chronological: the start index precedes the
end index. -/
theorem trendlines_chrono (f : OHLCFrame) :
    ∀ u ∈ (get_trendlines f).1, u.start.1 < u.endp.1 := by
  intro u hu
  unfold get_trendlines at hu
  dsimp only at hu
  rcases List.mem_append.mp hu with h | h
  · by_cases h1 : 2 ≤ (lowPivotPairs f 20).length
    · rw [if_pos h1] at h
      rw [List.mem_singleton] at h
      subst h
      dsimp only
      rw [getD_drop _ _ _ (by omega), getD_drop _ _ _ (by omega)]
      apply mapped_pairs_fst_lt _ _ (argrel_pairwise leB f.low 20)
      · omega
      · unfold lowPivotPairs at h1 ⊢
        omega
    · rw [if_neg h1] at h
      cases h
  · by_cases h2 : 2 ≤ (highPivotPairs f 20).length
    · rw [if_pos h2] at h
      rw [List.mem_singleton] at h
      subst h
      dsimp only
      rw [getD_drop _ _ _ (by omega), getD_drop _ _ _ (by omega)]
      apply mapped_pairs_fst_lt _ _ (argrel_pairwise geB f.high 20)
      · omega
      · unfold highPivotPairs at h2 ⊢
        omega
    · rw [if_neg h2] at h
      cases h

theorem trendlines_filter_up (f : OHLCFrame)
    (h1 : 2 ≤ (lowPivotPairs f 20).length) :
    (get_trendlines f).1.filter
      (fun u => decide (u.name = "Uptrend Support")) =
    [⟨"Uptrend Support",
      (lowPivotPairs f 20).getD ((lowPivotPairs f 20).length - 2) (0, 0),
      (lowPivotPairs f 20).getD ((lowPivotPairs f 20).length - 1) (0, 0),
      "green", "--", 3 / 2⟩] := by
  unfold get_trendlines
  dsimp only
  rw [if_pos h1]
  have hidx : (lowPivotPairs f 20).length - 2 + 1 =
      (lowPivotPairs f 20).length - 1 := by omega
  by_cases h2 : 2 ≤ (highPivotPairs f 20).length
  · rw [if_pos h2]
    simp [List.filter]
    rw [hidx]
  · rw [if_neg h2]
    simp [List.filter]
    rw [hidx]

theorem trendlines_filter_up_nil (f : OHLCFrame)
    (h1 : (lowPivotPairs f 20).length < 2) :
    (get_trendlines f).1.filter
      (fun u => decide (u.name = "Uptrend Support")) = [] := by
  unfold get_trendlines
  dsimp only
  rw [if_neg (by omega)]
  by_cases h2 : 2 ≤ (highPivotPairs f 20).length
  · rw [if_pos h2]
    simp [List.filter]
  · rw [if_neg h2]
    simp

theorem trendlines_filter_down (f : OHLCFrame)
    (h2 : 2 ≤ (highPivotPairs f 20).length) :
    (get_trendlines f).1.filter
      (fun u => decide (u.name = "Downtrend Resistance")) =
    [⟨"Downtrend Resistance",
      (highPivotPairs f 20).getD ((highPivotPairs f 20).length - 2) (0, 0),
      (highPivotPairs f 20).getD ((highPivotPairs f 20).length - 1) (0, 0),
      "red", "--", 3 / 2⟩] := by
  unfold get_trendlines
  dsimp only
  rw [if_pos h2]
  have hidx : (highPivotPairs f 20).length - 2 + 1 =
      (highPivotPairs f 20).length - 1 := by omega
  by_cases h1 : 2 ≤ (lowPivotPairs f 20).length
  · rw [if_pos h1]
    simp [List.filter]
    rw [hidx]
  · rw [if_neg h1]
    simp [List.filter]
    rw [hidx]

theorem trendlines_filter_down_nil (f : OHLCFrame)
    (h2 : (highPivotPairs f 20).length < 2) :
    (get_trendlines f).1.filter
      (fun u => decide (u.name = "Downtrend Resistance")) = [] := by
  unfold get_trendlines
  dsimp only
  rw [if_neg (show ¬2 ≤ (highPivotPairs f 20).length by omega)]
  by_cases h1 : 2 ≤ (lowPivotPairs f 20).length
  · rw [if_pos h1]
    simp [List.filter]
  · rw [if_neg h1]
    simp

/-- C8: `get_trendlines` returns between 0 and 2 trendlines: exactly one
named Uptrend Support, connecting in chronological order the earlier and
the later of the last two low-pivots with the fixed green dashed style of
width 1.5, when at least two low-pivots exist (and none otherwise), and
symmetrically exactly one red dashed Downtrend Resistance through the
last two high-pivots; every returned line runs from the earlier pivot to
the later one. -/
theorem trendlines_characterization (f : OHLCFrame) :
    ((get_trendlines f).1.length ≤ 2) ∧
    (2 ≤ (lowPivotPairs f 20).length →
      (get_trendlines f).1.filter
        (fun u => decide (u.name = "Uptrend Support")) =
      [⟨"Uptrend Support",
        (lowPivotPairs f 20).getD ((lowPivotPairs f 20).length - 2) (0, 0),
        (lowPivotPairs f 20).getD ((lowPivotPairs f 20).length - 1) (0, 0),
        "green", "--", 3 / 2⟩]) ∧
    ((lowPivotPairs f 20).length < 2 →
      (get_trendlines f).1.filter
        (fun u => decide (u.name = "Uptrend Support")) = []) ∧
    (2 ≤ (highPivotPairs f 20).length →
      (get_trendlines f).1.filter
        (fun u => decide (u.name = "Downtrend Resistance")) =
      [⟨"Downtrend Resistance",
        (highPivotPairs f 20).getD ((highPivotPairs f 20).length - 2) (0, 0),
        (highPivotPairs f 20).getD ((highPivotPairs f 20).length - 1) (0, 0),
        "red", "--", 3 / 2⟩]) ∧
    ((highPivotPairs f 20).length < 2 →
      (get_trendlines f).1.filter
        (fun u => decide (u.name = "Downtrend Resistance")) = []) ∧
    (∀ u ∈ (get_trendlines f).1, u.start.1 < u.endp.1) :=
  ⟨trendlines_length_le f, trendlines_filter_up f, trendlines_filter_up_nil f,
    trendlines_filter_down f, trendlines_filter_down_nil f,
    trendlines_chrono f⟩

/-- Witness for C8 on a flat two-row frame where both pivot kinds have two
members. -/
theorem trendlines_characterization_witness :
    (get_trendlines (OHLCFrame.mk [1, 1] [1, 1] [1, 1] [])).1.filter
      (fun u => decide (u.name = "Uptrend Support")) =
    [⟨"Uptrend Support",
      (lowPivotPairs (OHLCFrame.mk [1, 1] [1, 1] [1, 1] []) 20).getD
        ((lowPivotPairs (OHLCFrame.mk [1, 1] [1, 1] [1, 1] []) 20).length - 2)
        (0, 0),
      (lowPivotPairs (OHLCFrame.mk [1, 1] [1, 1] [1, 1] []) 20).getD
        ((lowPivotPairs (OHLCFrame.mk [1, 1] [1, 1] [1, 1] []) 20).length - 1)
        (0, 0),
      "green", "--", 3 / 2⟩] :=
  (trendlines_characterization (OHLCFrame.mk [1, 1] [1, 1] [1, 1] [])).2.1
    (by decide)

/-- C4 (amended): the analysis operations never add, remove or modify any
row and never change the caller data columns (High/Low/Close/Signal) or
any pre-existing column with a different name, but each of them does
assign its derived helper columns onto the frame passed in — the callers
in the repository protect their data by passing copies. -/
theorem analysis_mutates_only_derived_columns :
    (∀ (f : OHLCFrame) (p : ℕ),
      (calculate_atr f p).1.high = f.high ∧
      (calculate_atr f p).1.low = f.low ∧
      (calculate_atr f p).1.close = f.close ∧
      (∀ nm, nm ∉ (["High-Low", "High-PrevClose", "Low-PrevClose", "TR",
          "ATR"] : List String) →
        getCol (calculate_atr f p).1.extra nm = getCol f.extra nm)) ∧
    (∀ (f : OHLCFrame) (m : ℚ) (L : List ℚ) (f2 : OHLCFrame),
      get_sr_levels f m = some (L, f2) →
      f2.high = f.high ∧ f2.low = f.low ∧ f2.close = f.close ∧
      (∀ nm, nm ∉ (["min", "max", "High-Low", "High-PrevClose",
          "Low-PrevClose", "TR", "ATR"] : List String) →
        getCol f2.extra nm = getCol f.extra nm)) ∧
    (∀ f : OHLCFrame,
      (get_trendlines f).2.high = f.high ∧
      (get_trendlines f).2.low = f.low ∧
      (get_trendlines f).2.close = f.close ∧
      (∀ nm, nm ∉ (["Low_Pivot", "High_Pivot"] : List String) →
        getCol (get_trendlines f).2.extra nm = getCol f.extra nm)) ∧
    (∀ (f : SigFrame) (w : ℕ) (t : ℚ) (evs : List (ℕ × ℚ × ℝ))
        (f1 : SigFrame),
      detect_sr_events f w t = Except.ok (evs, f1) →
      f1.signal = f.signal ∧
      (∀ nm, nm ∉ (["Rolling_Mean", "Rolling_Std", "Difference", "Z_Score",
          "Is_Event"] : List String) →
        getCol f1.extra nm = getCol f.extra nm)) := by
  refine ⟨?_, ?_, ?_, ?_⟩
  · intro f p
    refine ⟨rfl, rfl, rfl, ?_⟩
    intro nm hnm
    simp only [List.mem_cons, not_or] at hnm
    obtain ⟨h1, h2, h3, h4, h5⟩ := hnm
    show getCol (setCol (setCol (setCol (setCol (setCol f.extra
      "High-Low" _) "High-PrevClose" _) "Low-PrevClose" _) "TR" _) "ATR" _)
      nm = getCol f.extra nm
    rw [getCol_setCol_ne _ _ _ _ h5.1, getCol_setCol_ne _ _ _ _ h4,
      getCol_setCol_ne _ _ _ _ h3, getCol_setCol_ne _ _ _ _ h2,
      getCol_setCol_ne _ _ _ _ h1]
  · intro f m L f2 hL
    have hfr : f2 = (calculate_atr { f with extra := (setCol (setCol f.extra
        "min" (pivotCol f.low (argrelextrema leB f.low 5))) "max"
        (pivotCol f.high (argrelextrema geB f.high 5))) } 14).1 := by
      rcases hma : (atrList f 14).getLast? with _ | a
      · unfold get_sr_levels at hL
        dsimp only at hL
        rw [calculate_atr_snd, atrList_extra, hma] at hL
        cases hL
      · unfold get_sr_levels at hL
        dsimp only at hL
        rw [calculate_atr_snd, atrList_extra, hma] at hL
        dsimp only at hL
        split_ifs at hL with hq
        · exact (((Prod.mk.injEq _ _ _ _).mp (Option.some.inj hL)).2).symm
        · exact (((Prod.mk.injEq _ _ _ _).mp (Option.some.inj hL)).2).symm
    subst hfr
    refine ⟨rfl, rfl, rfl, ?_⟩
    intro nm hnm
    simp only [List.mem_cons, not_or] at hnm
    obtain ⟨h1, h2, h3, h4, h5, h6, h7⟩ := hnm
    show getCol (setCol (setCol (setCol (setCol (setCol (setCol (setCol
      f.extra "min" _) "max" _) "High-Low" _) "High-PrevClose" _)
      "Low-PrevClose" _) "TR" _) "ATR" _) nm = getCol f.extra nm
    rw [getCol_setCol_ne _ _ _ _ h7.1, getCol_setCol_ne _ _ _ _ h6,
      getCol_setCol_ne _ _ _ _ h5, getCol_setCol_ne _ _ _ _ h4,
      getCol_setCol_ne _ _ _ _ h3, getCol_setCol_ne _ _ _ _ h2,
      getCol_setCol_ne _ _ _ _ h1]
  · intro f
    refine ⟨rfl, rfl, rfl, ?_⟩
    intro nm hnm
    simp only [List.mem_cons, not_or] at hnm
    obtain ⟨h1, h2⟩ := hnm
    show getCol (setCol (setCol f.extra "Low_Pivot" _) "High_Pivot" _) nm =
      getCol f.extra nm
    rw [getCol_setCol_ne _ _ _ _ h2.1, getCol_setCol_ne _ _ _ _ h1]
  · intro f w t evs f1 hok
    rcases hsig : f.signal with _ | sig
    · unfold detect_sr_events at hok
      rw [hsig] at hok
      cases hok
    · unfold detect_sr_events at hok
      rw [hsig] at hok
      dsimp only at hok
      have hfr := ((Prod.mk.injEq _ _ _ _).mp (Except.ok.inj hok)).2
      subst hfr
      refine ⟨rfl, ?_⟩
      intro nm hnm
      simp only [List.mem_cons, not_or] at hnm
      obtain ⟨h1, h2, h3, h4, h5⟩ := hnm
      show getCol (setCol (setCol (setCol (setCol (setCol f.extra
        "Rolling_Mean" _) "Rolling_Std" _) "Difference" _) "Z_Score" _)
        "Is_Event" _) nm = getCol f.extra nm
      rw [getCol_setCol_ne _ _ _ _ h5.1, getCol_setCol_ne _ _ _ _ h4,
        getCol_setCol_ne _ _ _ _ h3, getCol_setCol_ne _ _ _ _ h2,
        getCol_setCol_ne _ _ _ _ h1]

/-- Witness for C4 (amended): a column named foo is untouched by
`calculate_atr`. -/
theorem analysis_mutates_only_derived_columns_witness :
    ("foo" : String) ∉ (["High-Low", "High-PrevClose", "Low-PrevClose",
      "TR", "ATR"] : List String) ∧
    getCol (calculate_atr (OHLCFrame.mk [2] [1] [1] []) 14).1.extra "foo" =
      getCol (OHLCFrame.mk [2] [1] [1] []).extra "foo" :=
  ⟨by decide, (analysis_mutates_only_derived_columns.1
    (OHLCFrame.mk [2] [1] [1] []) 14).2.2.2 "foo" (by decide)⟩

/-- Counterexample to C4 as stated: `calculate_atr` adds its five derived
columns onto the frame passed in, so the input frame does not survive the
call unchanged. -/
theorem calculate_atr_mutates_frame :
    (calculate_atr (OHLCFrame.mk [2] [1] [1] []) 14).1.colNames =
      ["High-Low", "High-PrevClose", "Low-PrevClose", "TR", "ATR"] ∧
    (calculate_atr (OHLCFrame.mk [2] [1] [1] []) 14).1 ≠
      OHLCFrame.mk [2] [1] [1] [] := by
  have h : (calculate_atr (OHLCFrame.mk [2] [1] [1] []) 14).1.colNames =
      ["High-Low", "High-PrevClose", "Low-PrevClose", "TR", "ATR"] := by
    rfl
  refine ⟨h, fun hc => ?_⟩
  rw [hc] at h
  simp [OHLCFrame.colNames] at h

/-- A defined z-score requires a full window of at least two observations
at a valid index. -/
theorem zScoreAt_some_bounds (sig : List ℚ) (w i : ℕ) (z : ℝ)
    (h : zScoreAt sig w i = some z) :
    2 ≤ w ∧ w ≤ i + 1 ∧ i < sig.length := by
  unfold zScoreAt at h
  rcases hd : differenceAt sig w i with _ | d
  · rw [hd] at h
    exact absurd h (by simp)
  rcases hs : rollingStd sig w i with _ | s
  · rw [hd, hs] at h
    exact absurd h (by simp)
  unfold rollingStd at hs
  rcases hv : rollingVar sig w i with _ | v
  · rw [hv] at hs
    cases hs
  · unfold rollingVar at hv
    by_cases h2 : 2 ≤ w
    · rw [if_pos h2] at hv
      rcases hw : rollingWindow sig w i with _ | l
      · rw [hw] at hv
        cases hv
      · unfold rollingWindow at hw
        by_cases hc : 1 ≤ w ∧ w ≤ i + 1 ∧ i < sig.length
        · exact ⟨h2, hc.2.1, hc.2.2⟩
        · rw [if_neg hc] at hw
          cases hw
    · rw [if_neg h2] at hv
      cases hv

/-- When the rolling standard deviation is NaN the z-score is NaN. -/
theorem zScoreAt_none_of_std_none (sig : List ℚ) (w i : ℕ)
    (h : rollingStd sig w i = none) : zScoreAt sig w i = none := by
  unfold zScoreAt
  rcases hd : differenceAt sig w i with _ | d <;> rw [h]

/-- Characterisation of a kept event row. -/
theorem eventRowAt_eq_some (sig : List ℚ) (w : ℕ) (t : ℚ) (i : ℕ)
    (e : ℕ × ℚ × ℝ) :
    eventRowAt sig w t i = some e ↔
      ∃ z, zScoreAt sig w i = some z ∧ (t : ℝ) < |z| ∧
        e = (i, sig.getD i 0, z) := by
  unfold eventRowAt
  rcases hz : zScoreAt sig w i with _ | z
  · simp
  · dsimp only
    split_ifs with hlt
    · simp only [Option.some.injEq]
      constructor
      · intro he
        exact ⟨z, rfl, hlt, he.symm⟩
      · rintro ⟨z', hz', -, rfl⟩
        rw [hz']
    · simp only [false_iff, ne_eq]
      rintro ⟨z', hz', hlt', rfl⟩
      rw [← Option.some.inj hz'] at hlt'
      exact absurd hlt' hlt

/-- C1: with the Signal column present and positive window and threshold,
`detect_sr_events` succeeds and returns exactly the rows whose z-score
`(Signal - rolling mean) / (rolling sample std + 1e-6)` exceeds the
threshold in absolute value, in ascending index order, each carrying the
original Signal value and the signed z-score; any index whose rolling
statistic is undefined (in particular every `i < window - 1`) is never
reported. -/
theorem detect_events_characterization (f : SigFrame) (sig : List ℚ)
    (w : ℕ) (t : ℚ) (hsig : f.signal = some sig) (hw : 0 < w)
    (ht : 0 < t) :
    ∃ evs f1, detect_sr_events f w t = Except.ok (evs, f1) ∧
      (∀ i s z, (i, s, z) ∈ evs ↔
        (s = sig.getD i 0 ∧ zScoreAt sig w i = some z ∧ (t : ℝ) < |z|)) ∧
      (∀ e ∈ evs, w - 1 ≤ e.1 ∧ e.1 < sig.length) ∧
      List.Pairwise (· < ·) (evs.map (fun e => e.1)) := by
  unfold detect_sr_events
  rw [hsig]
  dsimp only
  refine ⟨_, _, rfl, ?_, ?_, ?_⟩
  · intro i s z
    rw [List.mem_filterMap]
    constructor
    · rintro ⟨a, -, hae⟩
      obtain ⟨z', hz', hlt', he⟩ := (eventRowAt_eq_some _ _ _ _ _).mp hae
      obtain ⟨rfl, rfl, rfl⟩ := Prod.mk.injEq .. ▸ he
      exact ⟨rfl, hz', hlt'⟩
    · rintro ⟨rfl, hz, hlt⟩
      refine ⟨i, List.mem_range.mpr
        (zScoreAt_some_bounds _ _ _ _ hz).2.2, ?_⟩
      rw [eventRowAt_eq_some]
      exact ⟨z, hz, hlt, rfl⟩
  · intro e he
    obtain ⟨a, -, hae⟩ := List.mem_filterMap.mp he
    obtain ⟨z', hz', -, rfl⟩ := (eventRowAt_eq_some _ _ _ _ _).mp hae
    have hb := zScoreAt_some_bounds _ _ _ _ hz'
    exact ⟨by omega, hb.2.2⟩
  · rw [List.pairwise_map]
    refine List.Pairwise.filterMap _ ?_ (List.pairwise_lt_range _)
    intro a b hab c hc d hd
    obtain ⟨-, -, -, rfl⟩ := (eventRowAt_eq_some _ _ _ _ _).mp hc
    obtain ⟨-, -, -, rfl⟩ := (eventRowAt_eq_some _ _ _ _ _).mp hd
    exact hab

/-- Witness for C1 on the series `[0, 1, 2]` with window 3, threshold 1. -/
theorem detect_events_characterization_witness :
    ∃ evs f1, detect_sr_events (SigFrame.mk (some [0, 1, 2]) []) 3 1 =
      Except.ok (evs, f1) ∧
      (∀ i s z, (i, s, z) ∈ evs ↔
        (s = ([0, 1, 2] : List ℚ).getD i 0 ∧
          zScoreAt [0, 1, 2] 3 i = some z ∧ ((1 : ℚ) : ℝ) < |z|)) ∧
      (∀ e ∈ evs, 3 - 1 ≤ e.1 ∧ e.1 < ([0, 1, 2] : List ℚ).length) ∧
      List.Pairwise (· < ·) (evs.map (fun e => e.1)) :=
  detect_events_characterization (SigFrame.mk (some [0, 1, 2]) [])
    [0, 1, 2] 3 1 rfl (by decide) (by decide)

/-- C6 (amended): for window 1 the rolling sample standard deviation is
undefined (NaN) at every index — pandas needs more observations than
`ddof = 1` — while the rolling mean equals the value itself, so the
deviation is zero everywhere and `detect_sr_events` accepts window 1 but
reports no event at all. -/
theorem window_one_no_events (f : SigFrame) (sig : List ℚ) (t : ℚ)
    (hsig : f.signal = some sig) :
    (∀ i, rollingStd sig 1 i = none) ∧
    (∀ i, i < sig.length → rollingMean sig 1 i = some (sig.getD i 0)) ∧
    (∃ f1, detect_sr_events f 1 t = Except.ok ([], f1)) := by
  have hstd : ∀ i, rollingStd sig 1 i = none := by
    intro i
    unfold rollingStd rollingVar
    rw [if_neg (by omega)]
    rfl
  refine ⟨hstd, ?_, ?_⟩
  · intro i hi
    unfold rollingMean rollingWindow
    rw [if_pos ⟨le_refl 1, by omega, hi⟩]
    dsimp only [Option.map]
    have h1 : i + 1 - 1 = i := by omega
    rw [h1, List.drop_eq_getElem_cons hi,
      show ∀ (x : ℚ) (l : List ℚ), List.take 1 (x :: l) = [x]
        from fun _ _ => rfl]
    simp [List.getD_eq_getElem _ _ hi, List.getElem?_eq_getElem hi]
  · have hevs : (List.range sig.length).filterMap (eventRowAt sig 1 t)
        = [] := by
      rw [List.filterMap_eq_nil_iff]
      intro a _
      unfold eventRowAt
      rw [zScoreAt_none_of_std_none sig 1 a (hstd a)]
    unfold detect_sr_events
    rw [hsig]
    dsimp only
    rw [hevs]
    exact ⟨_, rfl⟩

/-- Witness for C6 (amended) on the jumping series `[0, 100]`. -/
theorem window_one_no_events_witness :
    ∃ f1, detect_sr_events (SigFrame.mk (some [0, 100]) []) 1 (7 / 2) =
      Except.ok ([], f1) :=
  (window_one_no_events (SigFrame.mk (some [0, 100]) []) [0, 100] (7 / 2)
    rfl).2.2

/-- Counterexample to C6 as stated: on the series `[0, 100]` with window 1
the rolling sample standard deviation at index 0 is NaN (undefined), not
zero. -/
theorem window_one_std_not_zero :
    rollingStd [0, 100] 1 0 = none ∧
    rollingStd [0, 100] 1 0 ≠ some 0 := by
  have h : rollingStd [0, 100] 1 0 = none := by
    unfold rollingStd rollingVar
    rw [if_neg (by omega)]
    rfl
  exact ⟨h, by rw [h]; exact fun hc => Option.noConfusion hc⟩

/-- C9 (amended): `detect_sr_events` reports its input error exactly when
the Signal column is absent; the window and threshold parameters are not
validated, so any window and any (even nonpositive) threshold is accepted
when the Signal column is present. -/
theorem detect_error_iff (f : SigFrame) (w : ℕ) (t : ℚ) :
    (f.signal = none →
      detect_sr_events f w t =
        Except.error "DataFrame must contain a Signal column.") ∧
    (∀ sig, f.signal = some sig →
      ∃ evs f1, detect_sr_events f w t = Except.ok (evs, f1)) := by
  constructor
  · intro h
    unfold detect_sr_events
    rw [h]
  · intro sig h
    unfold detect_sr_events
    rw [h]
    exact ⟨_, _, rfl⟩

/-- Witness for C9 (amended): a frame with a Signal column never raises,
and a frame without one raises. -/
theorem detect_error_iff_witness :
    (∃ evs f1, detect_sr_events (SigFrame.mk (some [5]) []) 3 1 =
      Except.ok (evs, f1)) ∧
    detect_sr_events (SigFrame.mk none []) 3 1 =
      Except.error "DataFrame must contain a Signal column." :=
  ⟨(detect_error_iff (SigFrame.mk (some [5]) []) 3 1).2 [5] rfl,
    (detect_error_iff (SigFrame.mk none []) 3 1).1 rfl⟩

/-- Counterexample to C9 as stated: with the Signal column present and the
nonpositive threshold -1, `detect_sr_events` returns normally rather than
reporting an input error. -/
theorem detect_accepts_nonpositive_threshold :
    detectRaisesB (SigFrame.mk (some [5]) []) 30 (-1) = false ∧
    ((-1 : ℚ) ≤ 0) :=
  ⟨rfl, by norm_num⟩

end ForexBot
